import Mathlib

/-!
Verification of `strip-recommended.py`.

The script reads `src/lib/models.ts`, applies three `re.sub` substitutions to
its text, and writes the result back:

 1. `re.sub(r'^\s*recommended:\s*(?:true|false),?\s*$\n', '', content, flags=re.MULTILINE)`
 2. `re.sub(r',\s*,', ',', content)`
 3. `re.sub(r',(\s*})', r'\1', content)`

Texts are embedded as `List Char`.  Each substitution is embedded as an
executable scanner that reproduces Python's leftmost, non-overlapping,
greedy-with-backtracking matching for its specific pattern; every place where
backtracking is provably fruitless for the given pattern is noted at the
definition it concerns.
-/

set_option maxRecDepth 4000

namespace StripRec

/-- Whitespace test modelling Python's `\s` on the ASCII range
(space, tab, newline, carriage return, vertical tab, form feed);
the target file is ASCII source text. -/
def isSpace (c : Char) : Bool :=
  c = ' ' || c = '\t' || c = '\n' || c = '\r' || c = '\x0b' || c = '\x0c'

/-- Characters of the literal `recommended:` in pattern 1. -/
def recKey : List Char := ['r', 'e', 'c', 'o', 'm', 'm', 'e', 'n', 'd', 'e', 'd', ':']

/-- Characters of the literal `true` in pattern 1. -/
def trueChars : List Char := ['t', 'r', 'u', 'e']

/-- Characters of the literal `false` in pattern 1. -/
def falseChars : List Char := ['f', 'a', 'l', 's', 'e']

/-- One attempt of pattern 1, `^\s*recommended:\s*(?:true|false),?\s*$\n`
(MULTILINE), at a position where `^` holds (a line start).  Returns the
remainder of the text after the match when the attempt succeeds.

Each `\s*` is greedy: it always ends at the maximal whitespace run, because
the item that follows it begins with a non-whitespace character (`r`, `t`/`f`)
or — for the final `\s*$\n` — because backtracking inside the run stops at the
last position whose character is `'\n'` (`$` holds just before a `'\n'`, and
the literal `\n` then consumes it); so the match ends right after the last
newline inside the whitespace run that follows the `true`/`false`/comma.
`,?` never needs to give its comma back: with the comma refused, `\s*` matches
the empty string at the comma and `$` fails there. -/
def matchRecAt (s : List Char) : Option (List Char) :=
  let t1 := s.dropWhile isSpace
  if t1.take 12 = recKey then
    let t2 := (t1.drop 12).dropWhile isSpace
    let t3 : Option (List Char) :=
      if t2.take 4 = trueChars then some (t2.drop 4)
      else if t2.take 5 = falseChars then some (t2.drop 5)
      else none
    match t3 with
    | none => none
    | some t4 =>
      let t5 := if t4.take 1 = [','] then t4.drop 1 else t4
      let run := t5.takeWhile isSpace
      if '\n' ∈ run then
        some ((run.reverse.takeWhile (fun c => c != '\n')).reverse ++ t5.dropWhile isSpace)
      else none
  else none

/-- Split off the first line: `breakNl s = (l, some r)` when `s = l ++ '\n' :: r`
with `l` newline-free, and `(s, none)` when `s` has no newline. -/
def breakNl : List Char → List Char × Option (List Char)
  | [] => ([], none)
  | c :: cs =>
    if c = '\n' then ([], some cs)
    else
      match breakNl cs with
      | (l, r) => (c :: l, r)

/-- Substitution 1 with explicit fuel (one unit per line or per match, so
`length + 1` always suffices).  Pattern 1 is anchored with `^`, so the engine's
attempts succeed only at line starts; after a failed attempt at a line start
the whole first line is copied and scanning resumes at the next line start,
and after a successful match scanning resumes right after the matched text,
which ends just past a newline and is therefore again a line start. -/
def stripRecAux : Nat → List Char → List Char
  | 0, s => s
  | fuel + 1, s =>
    match matchRecAt s with
    | some r => stripRecAux fuel r
    | none =>
      match breakNl s with
      | (l, some r) => l ++ '\n' :: stripRecAux fuel r
      | (l, none) => l

/-- Substitution 1: `re.sub(r'^\s*recommended:\s*(?:true|false),?\s*$\n', '', content, flags=re.MULTILINE)`. -/
def stripRecLines (s : List Char) : List Char :=
  stripRecAux (s.length + 1) s

/-- Substitution 2 with fuel: `,\s*,` is replaced by `,`, leftmost first,
scanning resuming after each match.  The greedy `\s*` always ends at the
maximal whitespace run, since the following `,` is not whitespace.  An attempt
starting at a non-comma character fails immediately. -/
def collapseAux : Nat → List Char → List Char
  | 0, s => s
  | _ + 1, [] => []
  | fuel + 1, c :: cs =>
    if c = ',' then
      match cs.dropWhile isSpace with
      | d :: rs => if d = ',' then ',' :: collapseAux fuel rs else ',' :: collapseAux fuel cs
      | [] => ',' :: collapseAux fuel cs
    else c :: collapseAux fuel cs

/-- Substitution 2: `re.sub(r',\s*,', ',', content)`. -/
def collapseCommas (s : List Char) : List Char :=
  collapseAux (s.length + 1) s

/-- Substitution 3 with fuel: `,(\s*})` is replaced by the captured `\s*}`,
leftmost first, scanning resuming after each match.  The greedy `\s*` always
ends at the maximal whitespace run, since `}` is not whitespace. -/
def dropCommaAux : Nat → List Char → List Char
  | 0, s => s
  | _ + 1, [] => []
  | fuel + 1, c :: cs =>
    if c = ',' then
      match cs.dropWhile isSpace with
      | d :: rs =>
        if d = '\x7d' then cs.takeWhile isSpace ++ d :: dropCommaAux fuel rs
        else ',' :: dropCommaAux fuel cs
      | [] => ',' :: dropCommaAux fuel cs
    else c :: dropCommaAux fuel cs

/-- Substitution 3: `re.sub(r',(\s*})', r'\1', content)`. -/
def dropCommaBeforeBrace (s : List Char) : List Char :=
  dropCommaAux (s.length + 1) s

/-- The whole textual transformation of the script, substitutions 1–3 in
order. -/
def transform (s : List Char) : List Char :=
  dropCommaBeforeBrace (collapseCommas (stripRecLines s))

/-- Universal-newline translation performed by `open(..., 'r')` in text mode:
`\r\n` and lone `\r` both read as `\n`. -/
def normalizeNewlines : List Char → List Char
  | [] => []
  | '\r' :: '\n' :: cs => '\n' :: normalizeNewlines cs
  | '\r' :: cs => '\n' :: normalizeNewlines cs
  | c :: cs => c :: normalizeNewlines cs

/-- Split a text at its newlines: `splitNl s` lists the newline-free segments
of `s`, one more segment than there are newlines; the last segment is the
trailing fragment after the final newline (empty when the text ends in a
newline). -/
def splitNl : List Char → List (List Char)
  | [] => [[]]
  | c :: cs =>
    let r := splitNl cs
    if c = '\n' then [] :: r
    else (c :: r.headI) :: r.tail

/-- Rebuild a text from newline-terminated lines. -/
def joinNl : List (List Char) → List Char
  | [] => []
  | l :: ls => l ++ '\n' :: joinNl ls

/-- The newline-terminated lines of a text (all segments except the trailing
fragment). -/
def nlLines (s : List Char) : List (List Char) :=
  (splitNl s).dropLast

/-- Trim leading and trailing whitespace from a line. -/
def trimWs (l : List Char) : List Char :=
  ((l.dropWhile isSpace).reverse.dropWhile isSpace).reverse

/-- The four literal forms named by the specification: `recommended: true` and
`recommended: false`, each optionally followed by a trailing comma. -/
def recForms : List (List Char) :=
  [recKey ++ ' ' :: trueChars,
   recKey ++ ' ' :: trueChars ++ [','],
   recKey ++ ' ' :: falseChars,
   recKey ++ ' ' :: falseChars ++ [',']]

/-- The specification's line pattern: after trimming leading and trailing
whitespace the line reads `recommended: true` or `recommended: false`,
optionally followed by a trailing comma. -/
def isRecTrim (l : List Char) : Bool :=
  recForms.contains (trimWs l)

/-- Fuelled scan deciding whether pattern 1 matches anywhere in the text,
attempted at exactly the line starts visited by `stripRecAux`. -/
def noRecMatchAux : Nat → List Char → Bool
  | 0, _ => true
  | fuel + 1, s =>
    match matchRecAt s with
    | some _ => false
    | none =>
      match breakNl s with
      | (_, some r) => noRecMatchAux fuel r
      | (_, none) => true

/-- Whether pattern 1 (`^\s*recommended:\s*(?:true|false),?\s*$\n`, MULTILINE)
matches nowhere in the text. -/
def noRecMatch (s : List Char) : Bool :=
  noRecMatchAux (s.length + 1) s

/-- Whether pattern 2 (`,\s*,`) matches at the start of the text. -/
def startsCommaComma (s : List Char) : Bool :=
  match s with
  | c :: cs =>
    c = ',' &&
      match cs.dropWhile isSpace with
      | d :: _ => d = ','
      | [] => false
  | [] => false

/-- Whether pattern 2 (`,\s*,`) matches anywhere in the text. -/
def hasCommaComma : List Char → Bool
  | [] => false
  | c :: cs => startsCommaComma (c :: cs) || hasCommaComma cs

/-- Whether pattern 3 (`,\s*}`) matches at the start of the text. -/
def startsCommaBrace (s : List Char) : Bool :=
  match s with
  | c :: cs =>
    c = ',' &&
      match cs.dropWhile isSpace with
      | d :: _ => d = '\x7d'
      | [] => false
  | [] => false

/-- Whether pattern 3 (`,\s*}`) matches anywhere in the text. -/
def hasCommaBrace : List Char → Bool
  | [] => false
  | c :: cs => startsCommaBrace (c :: cs) || hasCommaBrace cs

/-- State of the target file `src/lib/models.ts` and of the permissions the
script depends on.  `contents` is the file's text as decoded characters
(`none` when the file does not exist); `validUtf8` records whether the raw
bytes decode as UTF-8, `readable` and `writable` whether the two `open` calls
are permitted. -/
structure Disk where
  contents : Option (List Char)
  validUtf8 : Bool
  readable : Bool
  writable : Bool

/-- Observable outcome of one run of the script: the final file state, the
lines printed to standard output, and the process exit status. -/
structure RunResult where
  disk : Disk
  stdoutLines : List (List Char)
  exitCode : Nat

/-- Characters of the script's confirmation line. -/
def successMsg : List Char :=
  "✅ Stripped all \x27recommended\x27 flags from models.ts".data

/-- The script, line by line, as explicit state passing.  There is no
`try`/`except` anywhere in the script, so the first failing step aborts the
process: `open(..., 'r')` raises `FileNotFoundError` or `PermissionError`
before anything is read, `f.read()` raises `UnicodeDecodeError` on invalid
UTF-8, and `open(..., 'w')` raises `PermissionError` before truncating.  An
uncaught Python exception terminates the interpreter with exit status 1 and
prints nothing to standard output; on success the script prints its single
confirmation line and exits with status 0. -/
def runScript (d : Disk) : RunResult :=
  match d.contents with
  | none => ⟨d, [], 1⟩
  | some raw =>
    if d.readable = false then ⟨d, [], 1⟩
    else if d.validUtf8 = false then ⟨d, [], 1⟩
    else
      let out := transform (normalizeNewlines raw)
      if d.writable = false then ⟨d, [], 1⟩
      else ⟨{ d with contents := some out }, [successMsg], 0⟩

/-! ### Utility lemmas about `takeWhile`, `dropWhile` and the line splitters -/

theorem dropWhile_append_all {p : Char → Bool} {xs : List Char} (h : xs.all p = true)
    (ys : List Char) : (xs ++ ys).dropWhile p = ys.dropWhile p := by
  induction xs with
  | nil => rfl
  | cons c cs ih =>
    rw [List.all_cons, Bool.and_eq_true] at h
    rw [List.cons_append, List.dropWhile_cons, if_pos h.1]
    exact ih h.2

theorem takeWhile_append_all {p : Char → Bool} {xs : List Char} (h : xs.all p = true)
    (ys : List Char) : (xs ++ ys).takeWhile p = xs ++ ys.takeWhile p := by
  induction xs with
  | nil => rfl
  | cons c cs ih =>
    rw [List.all_cons, Bool.and_eq_true] at h
    rw [List.cons_append, List.takeWhile_cons, if_pos h.1, ih h.2, List.cons_append]

theorem takeWhile_all (p : Char → Bool) (xs : List Char) : (xs.takeWhile p).all p = true := by
  induction xs with
  | nil => rfl
  | cons c cs ih =>
    rw [List.takeWhile_cons]
    split
    · next hc => rw [List.all_cons, Bool.and_eq_true]; exact ⟨hc, ih⟩
    · rfl

theorem dropWhile_head_false {p : Char → Bool} {xs : List Char} {c : Char} {cs : List Char}
    (h : xs.dropWhile p = c :: cs) : p c = false := by
  induction xs with
  | nil => cases h
  | cons a as ih =>
    rw [List.dropWhile_cons] at h
    split at h
    · exact ih h
    · next hpa =>
      cases h
      exact Bool.of_not_eq_true hpa

theorem dropWhile_bne_of_mem {x : Char} {xs : List Char} (h : x ∈ xs) :
    ∃ ys, xs.dropWhile (fun c => c != x) = x :: ys := by
  induction xs with
  | nil => cases h
  | cons a as ih =>
    rw [List.dropWhile_cons]
    by_cases hax : a = x
    · subst hax
      exact ⟨as, by simp⟩
    · have hb : (a != x) = true := bne_iff_ne.mpr hax
      rw [if_pos hb]
      rcases List.mem_cons.mp h with h1 | h2
      · exact absurd h1.symm hax
      · exact ih h2

theorem splitNl_ne_nil (s : List Char) : splitNl s ≠ [] := by
  cases s with
  | nil => simp [splitNl]
  | cons c cs =>
    simp only [splitNl]
    split <;> simp

theorem splitNl_nl_cons (cs : List Char) : splitNl ('\n' :: cs) = [] :: splitNl cs := by
  simp [splitNl]

theorem splitNl_cons_of_ne {c : Char} (h : ¬c = '\n') (cs : List Char) :
    splitNl (c :: cs) = (c :: (splitNl cs).headI) :: (splitNl cs).tail := by
  simp [splitNl, h]

theorem splitNl_append_nl {l : List Char} (h : '\n' ∉ l) (t : List Char) :
    splitNl (l ++ '\n' :: t) = l :: splitNl t := by
  induction l with
  | nil => simpa using splitNl_nl_cons t
  | cons c cs ih =>
    have hc : ¬c = '\n' := fun e => h (e ▸ List.mem_cons_self c cs)
    have hcs : '\n' ∉ cs := fun m => h (List.mem_cons_of_mem c m)
    rw [List.cons_append, splitNl_cons_of_ne hc, ih hcs]
    simp

theorem splitNl_no_nl {l : List Char} (h : '\n' ∉ l) : splitNl l = [l] := by
  induction l with
  | nil => rfl
  | cons c cs ih =>
    have hc : ¬c = '\n' := fun e => h (e ▸ List.mem_cons_self c cs)
    have hcs : '\n' ∉ cs := fun m => h (List.mem_cons_of_mem c m)
    rw [splitNl_cons_of_ne hc, ih hcs]
    simp

theorem splitNl_joinNl_append {ls : List (List Char)} (h : ∀ l ∈ ls, '\n' ∉ l)
    (t : List Char) : splitNl (joinNl ls ++ t) = ls ++ splitNl t := by
  induction ls with
  | nil => simp [joinNl]
  | cons l ls ih =>
    have : joinNl (l :: ls) ++ t = l ++ '\n' :: (joinNl ls ++ t) := by
      simp [joinNl]
    rw [this, splitNl_append_nl (h l (List.mem_cons_self l ls)),
      ih (fun x hx => h x (List.mem_cons_of_mem l hx))]
    rfl

theorem nlLines_append_nl {l : List Char} (h : '\n' ∉ l) (t : List Char) :
    nlLines (l ++ '\n' :: t) = l :: nlLines t := by
  unfold nlLines
  rw [splitNl_append_nl h]
  exact List.dropLast_cons_of_ne_nil (splitNl_ne_nil t)

theorem nlLines_no_nl {l : List Char} (h : '\n' ∉ l) : nlLines l = [] := by
  unfold nlLines
  rw [splitNl_no_nl h]
  rfl

theorem nlLines_joinNl_append {ls : List (List Char)} (h : ∀ l ∈ ls, '\n' ∉ l)
    (t : List Char) : nlLines (joinNl ls ++ t) = ls ++ nlLines t := by
  unfold nlLines
  rw [splitNl_joinNl_append h]
  exact List.dropLast_append_of_ne_nil _ (splitNl_ne_nil t)

theorem breakNl_cons_ne {c : Char} (h : ¬c = '\n') (cs : List Char) :
    breakNl (c :: cs) = (c :: (breakNl cs).1, (breakNl cs).2) := by
  rw [breakNl, if_neg h]

theorem breakNl_eq_some {s l r : List Char} (h : breakNl s = (l, some r)) :
    s = l ++ '\n' :: r ∧ '\n' ∉ l := by
  induction s generalizing l r with
  | nil => simp [breakNl] at h
  | cons c cs ih =>
    by_cases hc : c = '\n'
    · subst hc
      rw [breakNl, if_pos rfl] at h
      injection h with h1 h2
      injection h2 with h2
      subst h1
      subst h2
      exact ⟨rfl, by simp⟩
    · rw [breakNl_cons_ne hc] at h
      injection h with h1 h2
      rcases hb : breakNl cs with ⟨l₂, r₂⟩
      rw [hb] at h1 h2
      dsimp at h1 h2
      subst h2
      rcases ih hb with ⟨h3, h4⟩
      subst h1
      refine ⟨by rw [h3]; rfl, ?_⟩
      intro hm
      rcases List.mem_cons.mp hm with h5 | h6
      · exact hc h5.symm
      · exact h4 h6

theorem breakNl_eq_none {s l : List Char} (h : breakNl s = (l, none)) :
    s = l ∧ '\n' ∉ l := by
  induction s generalizing l with
  | nil =>
    rw [breakNl] at h
    injection h with h1 h2
    subst h1
    exact ⟨rfl, by simp⟩
  | cons c cs ih =>
    by_cases hc : c = '\n'
    · subst hc
      rw [breakNl, if_pos rfl] at h
      injection h with h1 h2
      cases h2
    · rw [breakNl_cons_ne hc] at h
      injection h with h1 h2
      rcases hb : breakNl cs with ⟨l₂, r₂⟩
      rw [hb] at h1 h2
      dsimp at h1 h2
      subst h2
      rcases ih hb with ⟨h3, h4⟩
      subst h1
      refine ⟨by rw [h3], ?_⟩
      intro hm
      rcases List.mem_cons.mp hm with h5 | h6
      · exact hc h5.symm
      · exact h4 h6

/-! ### Decomposition of a successful pattern-1 match -/

theorem lastNl_split {run : List Char} (hmem : '\n' ∈ run) :
    ∃ q, run = q ++ '\n' :: (run.reverse.takeWhile (fun c => c != '\n')).reverse := by
  obtain ⟨ys, hys⟩ := dropWhile_bne_of_mem (List.mem_reverse.mpr hmem)
  refine ⟨ys.reverse, ?_⟩
  have hsplit : run.reverse.takeWhile (fun c => c != '\n') ++ ('\n' :: ys) = run.reverse := by
    rw [← hys]
    exact List.takeWhile_append_dropWhile _ _
  have hrev := congrArg List.reverse hsplit
  rw [List.reverse_reverse, List.reverse_append] at hrev
  conv_lhs => rw [← hrev]
  simp

/-- A successful attempt of pattern 1 splits the text as everything up to the
matched `true`/`false` (and optional comma), followed by a tail `t5` whose
leading whitespace run contains the newline consumed by `$\n`; the returned
remainder keeps the part of that whitespace run after its last newline. -/
theorem matchRecAt_parts {s r : List Char} (h : matchRecAt s = some r) :
    ∃ p t5, s = p ++ t5 ∧ '\n' ∈ t5.takeWhile isSpace ∧
      r = ((t5.takeWhile isSpace).reverse.takeWhile (fun c => c != '\n')).reverse
            ++ t5.dropWhile isSpace := by
  simp only [matchRecAt] at h
  split at h
  · next hkey =>
    split at h
    · next heq => simp at h
    · next t4 heq =>
      split at heq
      · next htf =>
        injection heq with hd4
        by_cases hcm : t4.take 1 = [',']
        · rw [if_pos hcm] at h
          split at h
          · next hmem =>
            injection h with h
            set t2 := ((s.dropWhile isSpace).drop 12).dropWhile isSpace with ht2
            set t5 := t4.drop 1 with ht5
            refine ⟨s.takeWhile isSpace ++ (recKey ++
              (((s.dropWhile isSpace).drop 12).takeWhile isSpace ++ (trueChars ++ [',']))),
              t5, ?_, hmem, h.symm⟩
            have e1 : t4 = ',' :: t5 := by
              rw [ht5]
              conv_lhs => rw [← List.take_append_drop 1 t4]
              rw [hcm]
              rfl
            have e2 : t2 = trueChars ++ t4 := by
              conv_lhs => rw [← List.take_append_drop 4 t2]
              rw [htf, hd4]
            have e3 : (s.dropWhile isSpace).drop 12 =
                ((s.dropWhile isSpace).drop 12).takeWhile isSpace ++ t2 := by
              rw [ht2]
              exact (List.takeWhile_append_dropWhile _ _).symm
            have e4 : s.dropWhile isSpace = recKey ++ (s.dropWhile isSpace).drop 12 := by
              conv_lhs => rw [← List.take_append_drop 12 (s.dropWhile isSpace)]
              rw [hkey]
            have e5 : s = s.takeWhile isSpace ++ s.dropWhile isSpace :=
              (List.takeWhile_append_dropWhile _ _).symm
            calc s = s.takeWhile isSpace ++ s.dropWhile isSpace := e5
              _ = s.takeWhile isSpace ++ (recKey ++ (s.dropWhile isSpace).drop 12) := by
                  conv_lhs => rw [e4]
              _ = s.takeWhile isSpace ++ (recKey ++
                    (((s.dropWhile isSpace).drop 12).takeWhile isSpace ++ t2)) := by
                  conv_lhs => rw [e3]
              _ = s.takeWhile isSpace ++ (recKey ++
                    (((s.dropWhile isSpace).drop 12).takeWhile isSpace ++
                      (trueChars ++ (',' :: t5)))) := by
                  rw [e2, e1]
              _ = _ := by simp [List.append_assoc]
          · simp at h
        · rw [if_neg hcm] at h
          split at h
          · next hmem =>
            injection h with h
            set t2 := ((s.dropWhile isSpace).drop 12).dropWhile isSpace with ht2
            refine ⟨s.takeWhile isSpace ++ (recKey ++
              (((s.dropWhile isSpace).drop 12).takeWhile isSpace ++ trueChars)),
              t4, ?_, hmem, h.symm⟩
            have e2 : t2 = trueChars ++ t4 := by
              conv_lhs => rw [← List.take_append_drop 4 t2]
              rw [htf, hd4]
            have e3 : (s.dropWhile isSpace).drop 12 =
                ((s.dropWhile isSpace).drop 12).takeWhile isSpace ++ t2 := by
              rw [ht2]
              exact (List.takeWhile_append_dropWhile _ _).symm
            have e4 : s.dropWhile isSpace = recKey ++ (s.dropWhile isSpace).drop 12 := by
              conv_lhs => rw [← List.take_append_drop 12 (s.dropWhile isSpace)]
              rw [hkey]
            have e5 : s = s.takeWhile isSpace ++ s.dropWhile isSpace :=
              (List.takeWhile_append_dropWhile _ _).symm
            calc s = s.takeWhile isSpace ++ s.dropWhile isSpace := e5
              _ = s.takeWhile isSpace ++ (recKey ++ (s.dropWhile isSpace).drop 12) := by
                  conv_lhs => rw [e4]
              _ = s.takeWhile isSpace ++ (recKey ++
                    (((s.dropWhile isSpace).drop 12).takeWhile isSpace ++ t2)) := by
                  conv_lhs => rw [e3]
              _ = s.takeWhile isSpace ++ (recKey ++
                    (((s.dropWhile isSpace).drop 12).takeWhile isSpace ++
                      (trueChars ++ t4))) := by
                  rw [e2]
              _ = _ := by simp [List.append_assoc]
          · simp at h
      · split at heq
        · next htf =>
          injection heq with hd5
          by_cases hcm : t4.take 1 = [',']
          · rw [if_pos hcm] at h
            split at h
            · next hmem =>
              injection h with h
              set t2 := ((s.dropWhile isSpace).drop 12).dropWhile isSpace with ht2
              set t5 := t4.drop 1 with ht5
              refine ⟨s.takeWhile isSpace ++ (recKey ++
                (((s.dropWhile isSpace).drop 12).takeWhile isSpace ++ (falseChars ++ [',']))),
                t5, ?_, hmem, h.symm⟩
              have e1 : t4 = ',' :: t5 := by
                rw [ht5]
                conv_lhs => rw [← List.take_append_drop 1 t4]
                rw [hcm]
                rfl
              have e2 : t2 = falseChars ++ t4 := by
                conv_lhs => rw [← List.take_append_drop 5 t2]
                rw [htf, hd5]
              have e3 : (s.dropWhile isSpace).drop 12 =
                  ((s.dropWhile isSpace).drop 12).takeWhile isSpace ++ t2 := by
                rw [ht2]
                exact (List.takeWhile_append_dropWhile _ _).symm
              have e4 : s.dropWhile isSpace = recKey ++ (s.dropWhile isSpace).drop 12 := by
                conv_lhs => rw [← List.take_append_drop 12 (s.dropWhile isSpace)]
                rw [hkey]
              have e5 : s = s.takeWhile isSpace ++ s.dropWhile isSpace :=
                (List.takeWhile_append_dropWhile _ _).symm
              calc s = s.takeWhile isSpace ++ s.dropWhile isSpace := e5
                _ = s.takeWhile isSpace ++ (recKey ++ (s.dropWhile isSpace).drop 12) := by
                    conv_lhs => rw [e4]
                _ = s.takeWhile isSpace ++ (recKey ++
                      (((s.dropWhile isSpace).drop 12).takeWhile isSpace ++ t2)) := by
                    conv_lhs => rw [e3]
                _ = s.takeWhile isSpace ++ (recKey ++
                      (((s.dropWhile isSpace).drop 12).takeWhile isSpace ++
                        (falseChars ++ (',' :: t5)))) := by
                    rw [e2, e1]
                _ = _ := by simp [List.append_assoc]
            · simp at h
          · rw [if_neg hcm] at h
            split at h
            · next hmem =>
              injection h with h
              set t2 := ((s.dropWhile isSpace).drop 12).dropWhile isSpace with ht2
              refine ⟨s.takeWhile isSpace ++ (recKey ++
                (((s.dropWhile isSpace).drop 12).takeWhile isSpace ++ falseChars)),
                t4, ?_, hmem, h.symm⟩
              have e2 : t2 = falseChars ++ t4 := by
                conv_lhs => rw [← List.take_append_drop 5 t2]
                rw [htf, hd5]
              have e3 : (s.dropWhile isSpace).drop 12 =
                  ((s.dropWhile isSpace).drop 12).takeWhile isSpace ++ t2 := by
                rw [ht2]
                exact (List.takeWhile_append_dropWhile _ _).symm
              have e4 : s.dropWhile isSpace = recKey ++ (s.dropWhile isSpace).drop 12 := by
                conv_lhs => rw [← List.take_append_drop 12 (s.dropWhile isSpace)]
                rw [hkey]
              have e5 : s = s.takeWhile isSpace ++ s.dropWhile isSpace :=
                (List.takeWhile_append_dropWhile _ _).symm
              calc s = s.takeWhile isSpace ++ s.dropWhile isSpace := e5
                _ = s.takeWhile isSpace ++ (recKey ++ (s.dropWhile isSpace).drop 12) := by
                    conv_lhs => rw [e4]
                _ = s.takeWhile isSpace ++ (recKey ++
                      (((s.dropWhile isSpace).drop 12).takeWhile isSpace ++ t2)) := by
                    conv_lhs => rw [e3]
                _ = s.takeWhile isSpace ++ (recKey ++
                      (((s.dropWhile isSpace).drop 12).takeWhile isSpace ++
                        (falseChars ++ t4))) := by
                    rw [e2]
                _ = _ := by simp [List.append_assoc]
            · simp at h
        · cases heq
  · simp at h

/-- The text consumed by a successful pattern-1 match is nonempty and ends
with the newline consumed by the final `$\n` of the pattern. -/
theorem matchRecAt_decomp {s r : List Char} (h : matchRecAt s = some r) :
    ∃ pre, s = pre ++ '\n' :: r := by
  obtain ⟨p, t5, hs, hmem, hr⟩ := matchRecAt_parts h
  obtain ⟨q, hq⟩ := lastNl_split hmem
  refine ⟨p ++ q, ?_⟩
  have base : t5.takeWhile isSpace ++ t5.dropWhile isSpace = t5 :=
    List.takeWhile_append_dropWhile _ _
  rw [hq] at base
  rw [hs, ← base, hr]
  simp

theorem matchRecAt_length {s r : List Char} (h : matchRecAt s = some r) :
    r.length < s.length := by
  obtain ⟨pre, hpre⟩ := matchRecAt_decomp h
  rw [hpre]
  simp
  omega

/-! ### Pattern 1 succeeds on every newline-terminated line in one of the
four trimmed forms -/

theorem trimWs_structure {l R : List Char} (h : trimWs l = R) :
    ∃ w₁ w₂, w₁.all isSpace = true ∧ w₂.all isSpace = true ∧ l = w₁ ++ R ++ w₂ := by
  unfold trimWs at h
  refine ⟨l.takeWhile isSpace, ((l.dropWhile isSpace).reverse.takeWhile isSpace).reverse,
    takeWhile_all _ _, by rw [List.all_reverse]; exact takeWhile_all _ _, ?_⟩
  have h2 : (l.dropWhile isSpace).reverse.takeWhile isSpace ++
      (l.dropWhile isSpace).reverse.dropWhile isSpace = (l.dropWhile isSpace).reverse :=
    List.takeWhile_append_dropWhile _ _
  have h3 := congrArg List.reverse h2
  rw [List.reverse_reverse, List.reverse_append] at h3
  rw [h] at h3
  have hd : l.takeWhile isSpace ++ l.dropWhile isSpace = l :=
    List.takeWhile_append_dropWhile _ _
  conv_lhs => rw [← hd, ← h3]
  simp [List.append_assoc]

theorem isRecTrim_cases {l : List Char} (h : isRecTrim l = true) :
    trimWs l = recKey ++ ' ' :: trueChars ∨
    trimWs l = recKey ++ ' ' :: (trueChars ++ [',']) ∨
    trimWs l = recKey ++ ' ' :: falseChars ∨
    trimWs l = recKey ++ ' ' :: (falseChars ++ [',']) := by
  unfold isRecTrim recForms at h
  simp only [List.contains_cons, List.contains_nil, Bool.or_eq_true, beq_iff_eq,
    Bool.or_false] at h
  tauto

theorem dropWhile_w_recKey {w : List Char} (hw : w.all isSpace = true) (xs : List Char) :
    (w ++ (recKey ++ xs)).dropWhile isSpace = recKey ++ xs := by
  rw [dropWhile_append_all hw]
  rw [show recKey ++ xs = 'r' :: (['e', 'c', 'o', 'm', 'm', 'e', 'n', 'd', 'e', 'd', ':'] ++ xs)
    from rfl]
  rw [List.dropWhile_cons, if_neg (by decide)]

theorem dropWhile_space_true (Z : List Char) :
    (' ' :: (trueChars ++ Z)).dropWhile isSpace = trueChars ++ Z := by
  rw [List.dropWhile_cons, if_pos (by decide)]
  rw [show trueChars ++ Z = 't' :: (['r', 'u', 'e'] ++ Z) from rfl]
  rw [List.dropWhile_cons, if_neg (by decide)]

theorem dropWhile_space_false (Z : List Char) :
    (' ' :: (falseChars ++ Z)).dropWhile isSpace = falseChars ++ Z := by
  rw [List.dropWhile_cons, if_pos (by decide)]
  rw [show falseChars ++ Z = 'f' :: (['a', 'l', 's', 'e'] ++ Z) from rfl]
  rw [List.dropWhile_cons, if_neg (by decide)]

theorem take_one_ws_nl {w t : List Char} (hw : w.all isSpace = true) :
    ¬(w ++ '\n' :: t).take 1 = [','] := by
  cases w with
  | nil => simp
  | cons c cs =>
    rw [List.all_cons, Bool.and_eq_true] at hw
    intro hc
    rw [List.cons_append, List.take_succ_cons] at hc
    have : c = ',' := by
      have := congrArg (fun l => l.headI) hc
      simpa using this
    subst this
    simp [isSpace] at hw

theorem run_has_nl {w t : List Char} (hw : w.all isSpace = true) :
    '\n' ∈ (w ++ '\n' :: t).takeWhile isSpace := by
  rw [takeWhile_append_all hw, List.takeWhile_cons, if_pos (by decide)]
  exact List.mem_append.mpr (Or.inr (List.mem_cons_self _ _))

/-- Any line whose trimmed form is one of the specification's four
`recommended` forms, followed by a newline, is matched by pattern 1. -/
theorem matchRecAt_isSome_of_recTrim {l : List Char} (t : List Char)
    (hl : isRecTrim l = true) : (matchRecAt (l ++ '\n' :: t)).isSome = true := by
  have rk12 : recKey.length = 12 := rfl
  have tc4 : trueChars.length = 4 := rfl
  have fc5 : falseChars.length = 5 := rfl
  rcases isRecTrim_cases hl with hc | hc | hc | hc <;>
    obtain ⟨w₁, w₂, hw₁, hw₂, hstruct⟩ := trimWs_structure hc
  · -- recommended: true (no comma)
    have hs : l ++ '\n' :: t =
        w₁ ++ (recKey ++ (' ' :: (trueChars ++ (w₂ ++ '\n' :: t)))) := by
      rw [hstruct]
      simp [List.append_assoc]
    rw [hs]
    simp only [matchRecAt]
    rw [dropWhile_w_recKey hw₁, List.take_left' rk12, if_pos rfl, List.drop_left' rk12,
      dropWhile_space_true, List.take_left' tc4, if_pos rfl, List.drop_left' tc4]
    dsimp only
    rw [if_neg (take_one_ws_nl hw₂), if_pos (run_has_nl hw₂)]
    rfl
  · -- recommended: true, (with comma)
    have hs : l ++ '\n' :: t =
        w₁ ++ (recKey ++ (' ' :: (trueChars ++ (',' :: (w₂ ++ '\n' :: t))))) := by
      rw [hstruct]
      simp [List.append_assoc]
    rw [hs]
    simp only [matchRecAt]
    rw [dropWhile_w_recKey hw₁, List.take_left' rk12, if_pos rfl, List.drop_left' rk12,
      dropWhile_space_true, List.take_left' tc4, if_pos rfl, List.drop_left' tc4]
    dsimp only
    rw [if_pos (show (',' :: (w₂ ++ '\n' :: t)).take 1 = [','] from rfl)]
    rw [show (',' :: (w₂ ++ '\n' :: t)).drop 1 = w₂ ++ '\n' :: t from rfl]
    rw [if_pos (run_has_nl hw₂)]
    rfl
  · -- recommended: false (no comma)
    have hs : l ++ '\n' :: t =
        w₁ ++ (recKey ++ (' ' :: (falseChars ++ (w₂ ++ '\n' :: t)))) := by
      rw [hstruct]
      simp [List.append_assoc]
    rw [hs]
    simp only [matchRecAt]
    rw [dropWhile_w_recKey hw₁, List.take_left' rk12, if_pos rfl, List.drop_left' rk12,
      dropWhile_space_false]
    rw [show (falseChars ++ (w₂ ++ '\n' :: t)).take 4 = ['f', 'a', 'l', 's'] from rfl]
    rw [if_neg (by decide), List.take_left' fc5, if_pos rfl, List.drop_left' fc5]
    dsimp only
    rw [if_neg (take_one_ws_nl hw₂), if_pos (run_has_nl hw₂)]
    rfl
  · -- recommended: false, (with comma)
    have hs : l ++ '\n' :: t =
        w₁ ++ (recKey ++ (' ' :: (falseChars ++ (',' :: (w₂ ++ '\n' :: t))))) := by
      rw [hstruct]
      simp [List.append_assoc]
    rw [hs]
    simp only [matchRecAt]
    rw [dropWhile_w_recKey hw₁, List.take_left' rk12, if_pos rfl, List.drop_left' rk12,
      dropWhile_space_false]
    rw [show (falseChars ++ (',' :: (w₂ ++ '\n' :: t))).take 4 = ['f', 'a', 'l', 's'] from rfl]
    rw [if_neg (by decide), List.take_left' fc5, if_pos rfl, List.drop_left' fc5]
    dsimp only
    rw [if_pos (show (',' :: (w₂ ++ '\n' :: t)).take 1 = [','] from rfl)]
    rw [show (',' :: (w₂ ++ '\n' :: t)).drop 1 = w₂ ++ '\n' :: t from rfl]
    rw [if_pos (run_has_nl hw₂)]
    rfl

/-! ### Main theorems about substitution 1 -/

theorem getLast?_eq_some_append {xs : List Char} {x : Char} (h : xs.getLast? = some x) :
    ∃ ys, xs = ys ++ [x] := by
  induction xs with
  | nil => cases h
  | cons a as ih =>
    cases as with
    | nil =>
      rw [List.getLast?_singleton] at h
      injection h with h
      exact ⟨[], by rw [h]; rfl⟩
    | cons b bs =>
      rw [List.getLast?_cons_cons] at h
      obtain ⟨ys, hys⟩ := ih h
      exact ⟨a :: ys, by rw [List.cons_append, ← hys]⟩

/-- A text that ends in a newline is a concatenation of newline-terminated,
newline-free lines. -/
theorem ends_nl_joinNl : ∀ n (u : List Char), u.length ≤ n → ∀ pre, u = pre ++ ['\n'] →
    ∃ ls, (∀ l ∈ ls, '\n' ∉ l) ∧ u = joinNl ls := by
  intro n
  induction n with
  | zero =>
    intro u hu pre hpre
    have := congrArg List.length hpre
    simp at this
    omega
  | succ n ih =>
    intro u hu pre hpre
    cases hb : breakNl u with
    | mk l o =>
      cases o with
      | none =>
        obtain ⟨hseq, hnonl⟩ := breakNl_eq_none hb
        exfalso
        apply hnonl
        rw [← hseq, hpre]
        exact List.mem_append.mpr (Or.inr (List.mem_cons_self _ _))
      | some r =>
        obtain ⟨hseq, hnonl⟩ := breakNl_eq_some hb
        cases hr : r with
        | nil =>
          refine ⟨[l], by simpa using hnonl, ?_⟩
          rw [hseq, hr]
          simp [joinNl]
        | cons x xs =>
          have hlast : (x :: xs).getLast? = some '\n' := by
            have h₁ : u.getLast? = some '\n' := by
              rw [hpre, List.getLast?_append]
              simp
            rw [hseq, hr] at h₁
            rw [List.getLast?_append, List.getLast?_cons_cons] at h₁
            cases h₂ : (x :: xs).getLast? with
            | none =>
              rw [List.getLast?_eq_none_iff] at h₂
              cases h₂
            | some y =>
              rw [h₂] at h₁
              rw [show (some y).or l.getLast? = some y from rfl] at h₁
              exact h₁
          obtain ⟨r', hr'⟩ := getLast?_eq_some_append hlast
          have hlen : (x :: xs).length ≤ n := by
            have h₃ := congrArg List.length hseq
            rw [hr] at h₃
            simp at h₃
            simp only [List.length_cons]
            omega
          obtain ⟨ls', hfree', hjoin'⟩ := ih (x :: xs) hlen r' hr'
          refine ⟨l :: ls', ?_, ?_⟩
          · intro m hm
            rcases List.mem_cons.mp hm with h1 | h2
            · rw [h1]; exact hnonl
            · exact hfree' m h2
          · rw [hseq, hr, hjoin']
            rfl

/-- No newline-terminated line of the output of substitution 1 trims to one
of the four `recommended` forms. -/
theorem stripRecAux_no_recTrim : ∀ fuel s, s.length < fuel →
    ∀ l ∈ nlLines (stripRecAux fuel s), isRecTrim l = false := by
  intro fuel
  induction fuel with
  | zero => intro s hs; exact absurd hs (Nat.not_lt_zero _)
  | succ fuel ih =>
    intro s hs l hl
    simp only [stripRecAux] at hl
    cases hm : matchRecAt s with
    | some r =>
      rw [hm] at hl
      dsimp only at hl
      exact ih r (by have := matchRecAt_length hm; omega) l hl
    | none =>
      rw [hm] at hl
      dsimp only at hl
      cases hb : breakNl s with
      | mk l₁ o =>
        cases o with
        | some r =>
          rw [hb] at hl
          dsimp only at hl
          obtain ⟨hseq, hnonl⟩ := breakNl_eq_some hb
          rw [nlLines_append_nl hnonl] at hl
          rcases List.mem_cons.mp hl with h1 | h2
          · subst h1
            cases hrec : isRecTrim l with
            | false => rfl
            | true =>
              exfalso
              have hsome := matchRecAt_isSome_of_recTrim r hrec
              rw [← hseq, hm] at hsome
              cases hsome
          · have hrl : r.length < fuel := by
              have h₃ := congrArg List.length hseq
              simp at h₃
              omega
            exact ih r hrl l h2
        | none =>
          rw [hb] at hl
          dsimp only at hl
          obtain ⟨hseq, hnonl⟩ := breakNl_eq_none hb
          rw [nlLines_no_nl hnonl] at hl
          cases hl

/-- Substitution 1 only deletes whole newline-terminated lines: its output's
newline-terminated lines form a sublist of the input's. -/
theorem stripRecAux_sublist : ∀ fuel s, s.length < fuel →
    (nlLines (stripRecAux fuel s)).Sublist (nlLines s) := by
  intro fuel
  induction fuel with
  | zero => intro s hs; exact absurd hs (Nat.not_lt_zero _)
  | succ fuel ih =>
    intro s hs
    simp only [stripRecAux]
    cases hm : matchRecAt s with
    | some r =>
      dsimp only
      obtain ⟨pre, hpre⟩ := matchRecAt_decomp hm
      have hpre' : s = (pre ++ ['\n']) ++ r := by rw [hpre]; simp
      obtain ⟨ls, hfree, hjoin⟩ :=
        ends_nl_joinNl (pre ++ ['\n']).length (pre ++ ['\n']) le_rfl pre rfl
      have hnl : nlLines s = ls ++ nlLines r := by
        rw [hpre', hjoin]
        exact nlLines_joinNl_append hfree r
      rw [hnl]
      have hrl : r.length < fuel := by have := matchRecAt_length hm; omega
      exact (ih r hrl).trans (List.sublist_append_right ls _)
    | none =>
      dsimp only
      cases hb : breakNl s with
      | mk l₁ o =>
        cases o with
        | some r =>
          dsimp only
          obtain ⟨hseq, hnonl⟩ := breakNl_eq_some hb
          rw [nlLines_append_nl hnonl]
          rw [hseq, nlLines_append_nl hnonl]
          have hrl : r.length < fuel := by
            have h₃ := congrArg List.length hseq
            simp at h₃
            omega
          exact List.Sublist.cons₂ _ (ih r hrl)
        | none =>
          dsimp only
          obtain ⟨hseq, hnonl⟩ := breakNl_eq_none hb
          rw [nlLines_no_nl hnonl]
          exact List.nil_sublist _

/-- When pattern 1 matches nowhere, substitution 1 is the identity. -/
theorem stripRecAux_id : ∀ fuel s, noRecMatchAux fuel s = true → stripRecAux fuel s = s := by
  intro fuel
  induction fuel with
  | zero => intro s _; rfl
  | succ fuel ih =>
    intro s hno
    simp only [stripRecAux]
    simp only [noRecMatchAux] at hno
    cases hm : matchRecAt s with
    | some r => rw [hm] at hno; cases hno
    | none =>
      rw [hm] at hno
      dsimp only
      cases hb : breakNl s with
      | mk l₁ o =>
        rw [hb] at hno
        cases o with
        | some r =>
          dsimp only
          dsimp only at hno
          obtain ⟨hseq, _⟩ := breakNl_eq_some hb
          rw [ih r hno, ← hseq]
        | none =>
          dsimp only
          obtain ⟨hseq, _⟩ := breakNl_eq_none hb
          rw [← hseq]

/-! ### Lemmas about substitutions 2 and 3 -/

theorem collapseAux_nil : ∀ fuel, collapseAux fuel [] = [] := by
  intro fuel
  cases fuel <;> rfl

theorem dropCommaAux_nil : ∀ fuel, dropCommaAux fuel [] = [] := by
  intro fuel
  cases fuel <;> rfl

/-- When pattern 2 matches nowhere, substitution 2 is the identity. -/
theorem collapseAux_id : ∀ fuel s, hasCommaComma s = false → collapseAux fuel s = s := by
  intro fuel
  induction fuel with
  | zero => intro s _; rfl
  | succ fuel ih =>
    intro s hcc
    cases s with
    | nil => rfl
    | cons c cs =>
      simp only [hasCommaComma, Bool.or_eq_false_iff] at hcc
      obtain ⟨h1, h2⟩ := hcc
      simp only [collapseAux]
      split
      · next hc =>
        subst hc
        split
        · next d rs heq =>
          split
          · next hd =>
            exfalso
            have : startsCommaComma (',' :: cs) = true := by
              simp [startsCommaComma, heq, hd]
            rw [this] at h1
            cases h1
          · rw [ih cs h2]
        · rw [ih cs h2]
      · rw [ih cs h2]

/-- When pattern 3 matches nowhere, substitution 3 is the identity. -/
theorem dropCommaAux_id : ∀ fuel s, hasCommaBrace s = false → dropCommaAux fuel s = s := by
  intro fuel
  induction fuel with
  | zero => intro s _; rfl
  | succ fuel ih =>
    intro s hcb
    cases s with
    | nil => rfl
    | cons c cs =>
      simp only [hasCommaBrace, Bool.or_eq_false_iff] at hcb
      obtain ⟨h1, h2⟩ := hcb
      simp only [dropCommaAux]
      split
      · next hc =>
        subst hc
        split
        · next d rs heq =>
          split
          · next hd =>
            exfalso
            have : startsCommaBrace (',' :: cs) = true := by
              simp [startsCommaBrace, heq, hd]
            rw [this] at h1
            cases h1
          · rw [ih cs h2]
        · rw [ih cs h2]
      · rw [ih cs h2]

/-- One pattern-2 match: a comma, whitespace, and a second comma collapse to a
single comma (here as the whole text). -/
theorem collapseCommas_pair {ws : List Char} (hw : ws.all isSpace = true) :
    collapseCommas (',' :: ws ++ [',']) = [','] := by
  unfold collapseCommas
  simp only [collapseAux, if_true, List.append_eq]
  have hd : (ws ++ [',']).dropWhile isSpace = [','] := by
    rw [dropWhile_append_all hw, List.dropWhile_cons, if_neg (by decide)]
  rw [hd]
  dsimp only
  rw [if_pos rfl, collapseAux_nil]

/-- Substitution 2 on a run of n commas: adjacent pairs collapse left to
right, leaving ⌈n/2⌉ commas; a run of three or more commas is not reduced to
a single comma by the one pass. -/
theorem collapseAux_replicate : ∀ fuel n, n < fuel →
    collapseAux fuel (List.replicate n ',') = List.replicate ((n + 1) / 2) ',' := by
  intro fuel
  induction fuel with
  | zero => intro n h; exact absurd h (Nat.not_lt_zero _)
  | succ fuel ih =>
    intro n hn
    match n with
    | 0 => simp [collapseAux]
    | 1 =>
      simp only [List.replicate_succ, List.replicate_zero]
      simp only [collapseAux, if_true]
      rw [show (List.dropWhile isSpace ([] : List Char)) = [] from rfl]
      dsimp only
      rw [collapseAux_nil]
    | m + 2 =>
      rw [List.replicate_succ]
      simp only [collapseAux, if_true]
      have hd : (List.replicate (m + 1) ',').dropWhile isSpace = ',' :: List.replicate m ',' := by
        rw [List.replicate_succ, List.dropWhile_cons, if_neg (by decide)]
      rw [hd]
      dsimp only
      rw [if_pos rfl, ih m (by omega)]
      rw [show (m + 2 + 1) / 2 = (m + 1) / 2 + 1 by omega, List.replicate_succ]

/-- One pattern-3 match: a comma, whitespace, and a closing brace become the
whitespace and the brace, unchanged, without the comma. -/
theorem dropCommaBeforeBrace_pair {ws : List Char} (hw : ws.all isSpace = true) :
    dropCommaBeforeBrace (',' :: ws ++ ['\x7d']) = ws ++ ['\x7d'] := by
  unfold dropCommaBeforeBrace
  simp only [dropCommaAux, if_true, List.append_eq]
  have hd : (ws ++ ['\x7d']).dropWhile isSpace = ['\x7d'] := by
    rw [dropWhile_append_all hw, List.dropWhile_cons, if_neg (by decide)]
  rw [hd]
  dsimp only
  rw [if_pos rfl, dropCommaAux_nil]
  rw [takeWhile_append_all hw, List.takeWhile_cons, if_neg (by decide)]
  simp

/-- Substitution 3 on a run of commas before a brace removes exactly the one
comma adjacent to the brace. -/
theorem dropCommaAux_replicate : ∀ fuel n, n + 1 < fuel →
    dropCommaAux fuel (List.replicate (n + 1) ',' ++ ['\x7d']) =
      List.replicate n ',' ++ ['\x7d'] := by
  intro fuel
  induction fuel with
  | zero => intro n h; exact absurd h (Nat.not_lt_zero _)
  | succ fuel ih =>
    intro n hn
    match n with
    | 0 =>
      simp only [List.replicate_succ, List.replicate_zero, List.nil_append, List.cons_append]
      simp only [dropCommaAux, if_true]
      rw [show (List.dropWhile isSpace ['\x7d'] : List Char) = ['\x7d'] by
        rw [List.dropWhile_cons, if_neg (by decide)]]
      dsimp only
      rw [if_pos rfl, dropCommaAux_nil]
      rw [show (List.takeWhile isSpace ['\x7d'] : List Char) = [] by
        rw [List.takeWhile_cons, if_neg (by decide)]]
      rfl
    | m + 1 =>
      rw [List.replicate_succ, List.cons_append]
      simp only [dropCommaAux, if_true]
      have hd : (List.replicate (m + 1) ',' ++ ['\x7d']).dropWhile isSpace =
          ',' :: (List.replicate m ',' ++ ['\x7d']) := by
        rw [List.replicate_succ, List.cons_append, List.dropWhile_cons, if_neg (by decide)]
      rw [hd]
      dsimp only
      rw [if_neg (by decide), ih m (by omega)]
      rw [List.replicate_succ, List.cons_append]

/-- Round trip: when pattern 1 matches nowhere and the text contains no
comma-whitespace-comma and no comma-whitespace-brace occurrence, the whole
transformation is the identity. -/
theorem transform_eq_self_of_clean {s : List Char} (h1 : noRecMatch s = true)
    (h2 : hasCommaComma s = false) (h3 : hasCommaBrace s = false) : transform s = s := by
  have e1 : stripRecLines s = s := by
    unfold stripRecLines
    exact stripRecAux_id _ _ h1
  have e2 : collapseCommas s = s := by
    unfold collapseCommas
    exact collapseAux_id _ _ h2
  have e3 : dropCommaBeforeBrace s = s := by
    unfold dropCommaBeforeBrace
    exact dropCommaAux_id _ _ h3
  unfold transform
  rw [e1, e2, e3]

/-! ### Claim theorems -/

/-- C1, counterexample.  The claim says no line trimming to
`recommended: true`/`recommended: false` (with optional trailing comma) occurs
in the transformation's output, including when the matching line is the last
line of the file.  Both parts fail: on `recommended: true,,\n` the comma
collapse of step 3 turns the surviving line `recommended: true,,` into
`recommended: true,`, which trims to a forbidden form yet is in the output;
and a final line `recommended: true` without a trailing newline is not
removed, because the pattern ends with a literal `\n`. -/
theorem c1_counterexample :
    (nlLines (transform "recommended: true,,\n".data)).any isRecTrim = true ∧
    transform "recommended: true".data = "recommended: true".data ∧
    isRecTrim "recommended: true".data = true := by
  refine ⟨by decide, by decide, by decide⟩

/-- C1, amended: the line-removal step (substitution 1) leaves no
newline-terminated line that trims to `recommended: true` or
`recommended: false` with an optional trailing comma; a final line without a
trailing newline is not removed, and the later comma cleanup can create a new
such line. -/
theorem c1_amended (s : List Char) :
    (nlLines (stripRecLines s)).all (fun l => !isRecTrim l) = true := by
  rw [List.all_eq_true]
  intro l hl
  have h := stripRecAux_no_recTrim (s.length + 1) s (Nat.lt_succ_self _) l hl
  rw [h]
  rfl

/-- C2, counterexample.  The claim says every non-matching line — including
empty lines adjacent to a matching line — survives the line-removal step.  On
`recommended: true,\n\nb\n` the empty line after the matching line is absorbed
by the trailing `\s*$\n` of the pattern (Python's `\s` matches newlines) and
is removed with it. -/
theorem c2_counterexample :
    stripRecLines "recommended: true,\n\nb\n".data = "b\n".data ∧
    ([] : List Char) ∈ nlLines "recommended: true,\n\nb\n".data ∧
    isRecTrim ([] : List Char) = false ∧
    ([] : List Char) ∉ nlLines (stripRecLines "recommended: true,\n\nb\n".data) := by
  refine ⟨by decide, by decide, by decide, by decide⟩

/-- C2, amended: the line-removal step deletes whole newline-terminated lines
only — its output's newline-terminated lines form a sublist of the input's —
but the deleted region of one match can also take in whitespace-only lines
adjacent to the matching line (and, since `\s` spans newlines, a match can
even span several lines). -/
theorem c2_amended (s : List Char) :
    (nlLines (stripRecLines s)).Sublist (nlLines s) :=
  stripRecAux_sublist (s.length + 1) s (Nat.lt_succ_self _)

/-- C3, counterexample.  The claim says any input with no matching line is
returned unchanged regardless of comma sequences already present.  The input
`a,,b\n` has no matching line, yet the comma collapse rewrites it to
`a,b\n`. -/
theorem c3_counterexample :
    noRecMatch "a,,b\n".data = true ∧
    (nlLines "a,,b\n".data).all (fun l => !isRecTrim l) = true ∧
    transform "a,,b\n".data ≠ "a,,b\n".data := by
  refine ⟨by decide, by decide, by decide⟩

/-- C3, amended: an input on which pattern 1 matches nowhere (in particular
one with no line trimming to a `recommended` form, and no multi-line match),
and which contains no comma-whitespace-comma and no comma-whitespace-brace
occurrence, is returned exactly unchanged. -/
theorem c3_amended (s : List Char) (h1 : noRecMatch s = true)
    (h2 : hasCommaComma s = false) (h3 : hasCommaBrace s = false) :
    transform s = s :=
  transform_eq_self_of_clean h1 h2 h3

/-- C3, witness for the amended theorem at a concrete clean input. -/
theorem c3_witness :
    noRecMatch "a: 1,\n  b: 2\n".data = true ∧
    hasCommaComma "a: 1,\n  b: 2\n".data = false ∧
    hasCommaBrace "a: 1,\n  b: 2\n".data = false ∧
    transform "a: 1,\n  b: 2\n".data = "a: 1,\n  b: 2\n".data :=
  ⟨by decide, by decide, by decide,
    c3_amended _ (by decide) (by decide) (by decide)⟩

/-- C4, counterexample.  On the spec's Example 2 input the claim asserts the
comma after `bar: 2` is retained; in fact step 4 (`,(\s*})` → `\1`) removes
it, because it stands immediately before the closing brace. -/
theorem c4_counterexample :
    transform "foo: 1,\n  recommended: false,\n  bar: 2,\n\x7d".data ≠
      "foo: 1,\n  bar: 2,\n\x7d".data := by
  decide

/-- C4, amended: on that input the transformation yields
`foo: 1,\n  bar: 2\n}` — the recommended line is removed and the now-trailing
comma after `bar: 2` is removed as well by the cleanup of commas before a
closing brace. -/
theorem c4_amended :
    transform "foo: 1,\n  recommended: false,\n  bar: 2,\n\x7d".data =
      "foo: 1,\n  bar: 2\n\x7d".data := by
  decide

/-- C5: the comma collapse replaces each matched comma-whitespace-comma by a
single comma in one left-to-right pass: a matched pair with any whitespace
between collapses to one comma; a run of n commas leaves ⌈n/2⌉ commas, so a
run of three or more is only partially collapsed and in particular is never
reduced to a single comma by the one pass. -/
theorem c5_collapse_behavior :
    (∀ ws : List Char, ws.all isSpace = true →
      collapseCommas (',' :: ws ++ [',']) = [',']) ∧
    (∀ n : Nat, collapseCommas (List.replicate n ',') = List.replicate ((n + 1) / 2) ',') ∧
    (∀ n : Nat, 3 ≤ n → collapseCommas (List.replicate n ',') ≠ [',']) := by
  have hrep : ∀ n : Nat,
      collapseCommas (List.replicate n ',') = List.replicate ((n + 1) / 2) ',' := by
    intro n
    unfold collapseCommas
    rw [List.length_replicate]
    exact collapseAux_replicate _ n (Nat.lt_succ_self n)
  refine ⟨fun ws hw => collapseCommas_pair hw, hrep, ?_⟩
  intro n hn h
  rw [hrep n] at h
  have := congrArg List.length h
  simp at this
  omega

/-- C5, witness at concrete inputs: one spaced pair, and a run of three
commas. -/
theorem c5_witness :
    collapseCommas (',' :: [' '] ++ [',']) = [','] ∧
    collapseCommas (List.replicate 3 ',') ≠ [','] :=
  ⟨c5_collapse_behavior.1 [' '] (by decide), c5_collapse_behavior.2.2 3 (by decide)⟩

/-- C6: the trailing-comma cleanup removes the comma of each matched
comma-whitespace-brace and keeps the whitespace and the brace unchanged; on a
run of commas before a brace exactly the comma adjacent to the brace is
removed by the one pass. -/
theorem c6_brace_behavior :
    (∀ ws : List Char, ws.all isSpace = true →
      dropCommaBeforeBrace (',' :: ws ++ ['\x7d']) = ws ++ ['\x7d']) ∧
    (∀ n : Nat, dropCommaBeforeBrace (List.replicate (n + 1) ',' ++ ['\x7d']) =
      List.replicate n ',' ++ ['\x7d']) := by
  refine ⟨fun ws hw => dropCommaBeforeBrace_pair hw, ?_⟩
  intro n
  unfold dropCommaBeforeBrace
  rw [List.length_append, List.length_replicate]
  exact dropCommaAux_replicate _ n (by simp)

/-- C6, witness at concrete inputs: a spaced comma-brace, and a double comma
before a brace. -/
theorem c6_witness :
    dropCommaBeforeBrace (',' :: [' '] ++ ['\x7d']) = [' '] ++ ['\x7d'] ∧
    dropCommaBeforeBrace (List.replicate 2 ',' ++ ['\x7d']) =
      List.replicate 1 ',' ++ ['\x7d'] :=
  ⟨c6_brace_behavior.1 [' '] (by decide), c6_brace_behavior.2 1⟩

/-- C7, counterexample.  The claim allows a second pass to differ only by
further reducing residual commas from incomplete comma collapse, and asserts
the once-transformed text has no remaining matching line.  On
`recommended: true,,\n` the first pass's comma collapse creates the line
`recommended: true,`, which does match, and the second pass strips it. -/
theorem c7_counterexample :
    transform (transform "recommended: true,,\n".data) ≠
      transform "recommended: true,,\n".data ∧
    (nlLines (transform "recommended: true,,\n".data)).any isRecTrim = true := by
  refine ⟨by decide, by decide⟩

/-- C7, amended: the transformation is idempotent on every input whose first
pass leaves no pattern-1 match, no comma-whitespace-comma and no
comma-whitespace-brace occurrence; otherwise a second pass may further reduce
residual commas, and may even strip a `recommended` line newly created by the
comma collapse. -/
theorem c7_amended (s : List Char) (h1 : noRecMatch (transform s) = true)
    (h2 : hasCommaComma (transform s) = false)
    (h3 : hasCommaBrace (transform s) = false) :
    transform (transform s) = transform s :=
  transform_eq_self_of_clean h1 h2 h3

/-- C7, witness for the amended theorem at a concrete input on which the
first pass strips a line. -/
theorem c7_witness :
    noRecMatch (transform "x: 1,\nrecommended: true\n".data) = true ∧
    hasCommaComma (transform "x: 1,\nrecommended: true\n".data) = false ∧
    hasCommaBrace (transform "x: 1,\nrecommended: true\n".data) = false ∧
    transform (transform "x: 1,\nrecommended: true\n".data) =
      transform "x: 1,\nrecommended: true\n".data :=
  ⟨by decide, by decide, by decide,
    c7_amended _ (by decide) (by decide) (by decide)⟩

/-- C8: the script catches nothing: a run either succeeds — exit status 0 and
exactly the one confirmation line on standard output — or aborts with exit
status 1 and no standard output; and it succeeds exactly when the file exists,
is readable, decodes as UTF-8, and is writable. -/
theorem c8_exit_behavior (d : Disk) :
    (((runScript d).exitCode = 0 ∧ (runScript d).stdoutLines = [successMsg]) ∨
      ((runScript d).exitCode = 1 ∧ (runScript d).stdoutLines = [])) ∧
    ((runScript d).exitCode = 0 ↔
      d.contents.isSome = true ∧ d.readable = true ∧ d.validUtf8 = true ∧
        d.writable = true) := by
  rcases d with ⟨c, v, rd, wr⟩
  cases c <;> cases v <;> cases rd <;> cases wr <;> simp [runScript]

/-- C9: the transformed text is a pure function of the source text — equal
source texts give equal transformed texts. -/
theorem c9_deterministic (s t : List Char) (h : s = t) : transform s = transform t := by
  rw [h]

/-- C9, witness at a concrete input. -/
theorem c9_witness : transform "a: 1,,\n".data = transform "a: 1,,\n".data :=
  c9_deterministic "a: 1,,\n".data "a: 1,,\n".data rfl

/-- C10: a read-side failure leaves the file untouched — if the file is
missing, unreadable, or not valid UTF-8, the run ends with the disk exactly
as it was, because the script opens the file for writing only after the read
and decode have succeeded. -/
theorem c10_read_fail_preserves (d : Disk)
    (h : d.contents = none ∨ d.readable = false ∨ d.validUtf8 = false) :
    (runScript d).disk = d := by
  rcases d with ⟨c, v, rd, wr⟩
  cases c with
  | none => rfl
  | some raw =>
    simp only at h
    rcases h with h | h | h
    · cases h
    · subst h
      simp [runScript]
    · subst h
      cases rd <;> simp [runScript]

/-- C10, witness: a missing file is left as it is. -/
theorem c10_witness :
    (⟨none, true, true, true⟩ : Disk).contents = none ∧
    (runScript ⟨none, true, true, true⟩).disk = (⟨none, true, true, true⟩ : Disk) :=
  ⟨rfl, c10_read_fail_preserves _ (Or.inl rfl)⟩

end StripRec
